import Mathlib

/-!
Verification of the Timer & Aggregation Engine of the kivy-task-tracker
repository, against its final source version (src/unnamed/part_000,
"Kivy-Task-Tracker v1.3").

Shallow embedding conventions:
* Python dicts are insertion-ordered association lists (`Dict α`), the
  semantics of CPython dicts (and of `json.load`/`json.dump`, which preserve
  key order).  `Dict.set` replaces in place on an existing key and appends a
  new key at the end, exactly like `d[k] = v`.
* JSON values are the inductive `JVal`; numbers carry `Int` (the application
  only ever stores whole seconds; the spec's scope note excludes
  partial-second precision).
* Timestamps are whole seconds (`Int`).  With integral timestamps Python's
  `int((now - start).total_seconds())` is the identity on the difference, so
  elapsed time is modelled as plain `Int` subtraction.
* Python compares strings by code point; `lexLt`/`pyLe` model that order on
  `String.data`, and `pySorted` models the stable ascending `sorted(...)`.
* `str.strip()` is modelled by `pyStrip` (whitespace trimming on both ends).
* The backing file is `Option Content`: `none` is an absent file,
  `Content.bad` is text `json.load` rejects, `Content.val v` is text whose
  JSON denotation is `v` (the `json` library is the external collaborator;
  `json.dump` is deterministic, so equal values mean equal file content).
-/

namespace TaskTracker

/-- JSON values as stored in `tasks_data.json`.  Objects are
insertion-ordered association lists, matching CPython dict semantics. -/
inductive JVal where
  | jstr (s : String)
  | jnum (n : Int)
  | jbool (b : Bool)
  | jnull
  | jobj (m : List (String × JVal))
  | jarr (l : List JVal)

/-- Insertion-ordered string-keyed dictionary (the shape of a Python dict). -/
abbrev Dict (α : Type) := List (String × α)

/-- The persisted Store: a JSON object mapping date keys to day records. -/
abbrev Obj := Dict JVal

namespace Dict

/-- `d.get? k` = `d[k]` / `d.get(k)`: the value at the first occurrence of
key `k` (Python dicts have unique keys, so first = only). -/
def get? (d : Dict α) (k : String) : Option α :=
  (d.find? (fun p => p.1 == k)).map Prod.snd

/-- `k in d` (Python key membership). -/
def hasKey (d : Dict α) (k : String) : Bool :=
  (d.get? k).isSome

/-- `d[k] = v`: replace in place when `k` is present (keeping its position),
append at the end when it is new — CPython dict assignment. -/
def set (d : Dict α) (k : String) (v : α) : Dict α :=
  if d.hasKey k then d.map (fun p => if p.1 == k then (k, v) else p)
  else d ++ [(k, v)]

/-- `del d[k]`: remove the key (all occurrences; unique under `Nodup`). -/
def erase (d : Dict α) (k : String) : Dict α :=
  d.filter (fun p => p.1 != k)

/-- The key list, in insertion order (`d.keys()`). -/
def keys (d : Dict α) : List String := d.map Prod.fst

end Dict

/-! ### Python string order and strip -/

/-- Lexicographic strict order on code-point lists: how Python compares
strings. -/
def lexLt : List Nat → List Nat → Bool
  | [], [] => false
  | [], _ :: _ => true
  | _ :: _, [] => false
  | a :: as, b :: bs => if a < b then true else if b < a then false else lexLt as bs

/-- The code points of a string. -/
def codes (s : String) : List Nat := s.data.map Char.toNat

/-- `a <= b` as Python compares strings. -/
def pyLe (a b : String) : Bool := !(lexLt (codes b) (codes a))

/-- Python `sorted(...)` on strings: a stable ascending sort.  Both Python's
Timsort and insertion sort are stable, so they agree on every input. -/
def pySorted (l : List String) : List String :=
  List.insertionSort (fun a b => pyLe a b = true) l

/-- The characters Python `str.strip()` removes: exactly the code points
`str.isspace()` accepts (ASCII whitespace and the C0 separators, NEL,
NBSP, Ogham space mark, the Unicode space separators U+2000-200A, the
line/paragraph separators, narrow/medium spaces and the ideographic
space). -/
def isWS (c : Char) : Bool :=
  decide ((0x09 ≤ c.toNat ∧ c.toNat ≤ 0x0d)
    ∨ (0x1c ≤ c.toNat ∧ c.toNat ≤ 0x1f)
    ∨ c.toNat = 0x20 ∨ c.toNat = 0x85 ∨ c.toNat = 0xa0 ∨ c.toNat = 0x1680
    ∨ (0x2000 ≤ c.toNat ∧ c.toNat ≤ 0x200a)
    ∨ c.toNat = 0x2028 ∨ c.toNat = 0x2029 ∨ c.toNat = 0x202f
    ∨ c.toNat = 0x205f ∨ c.toNat = 0x3000)

/-- Drop leading whitespace of a character list. -/
def dropWS : List Char → List Char
  | [] => []
  | c :: cs => if isWS c then dropWS cs else c :: cs

/-- Python `str.strip()`: whitespace removed from both ends. -/
def pyStrip (s : String) : String :=
  ⟨(dropWS (dropWS s.data.reverse).reverse)⟩

/-! ### Utilities (source lines 98-106) -/

/-- Two-digit zero padding, `{m:02d}` for the in-range minute/second parts. -/
def pad2 (n : Int) : String :=
  if 0 ≤ n ∧ n < 10 then "0" ++ toString n else toString n

/-- `format_seconds` (source lines 98-102): `h:mm:ss`.  Lean's `Int`
division/modulo are Euclidean, which agree with Python's floor
division/modulo for the positive divisors used here. -/
def format_seconds (sec : Int) : String :=
  let h := sec / 3600
  let m := (sec % 3600) / 60
  let s := sec % 60
  toString h ++ ":" ++ pad2 m ++ ":" ++ pad2 s

/-! ### PersistentStore (source lines 71-95) -/

/-- Abstract content of the backing file: either text that `json.load`
rejects, or text denoting the JSON value `v`. -/
inductive Content where
  | bad
  | val (v : JVal)

/-- What a call to `safe_load_data` produces: the returned store, the name
the unreadable file was renamed to (if any), and whether the failure was
appended to the error log. -/
structure LoadResult where
  store : Obj
  backup : Option String
  logged : Bool

/-- The timestamped backup name `f"{DATA_FILE}.backup.{int(...timestamp())}"`
(source line 82). -/
def backupName (now : Int) : String :=
  "tasks_data.json.backup." ++ toString now

/-- `safe_load_data` (source lines 71-87).  An absent file yields an empty
store; content that fails to parse, or parses to a non-dict root, is renamed
to a timestamped backup, the failure is logged, and an empty store is
returned; a dict root is returned as-is.  The function is total: no parse
error reaches the caller. -/
def safe_load_data (file : Option Content) (now : Int) : LoadResult :=
  match file with
  | none => ⟨[], none, false⟩
  | some .bad => ⟨[], some (backupName now), true⟩
  | some (.val v) =>
    match v with
    | .jobj m => ⟨m, none, false⟩
    | _ => ⟨[], some (backupName now), true⟩

/-- `save_data` (source lines 90-95): serialize the store and overwrite the
backing file (`json.dump` of the root dict).  The success path is modelled;
a write failure is logged and swallowed by the source, leaving the claims
about written content on the success path. -/
def save_data (m : Obj) : Option Content :=
  some (.val (.jobj m))

/-! ### TimeSession: the TaskWidget timer state (source lines 183-264) -/

/-- The timing state a `TaskWidget` keeps for its task: the committed
cumulative seconds, the in-memory session start (`None` = stopped), the
rendered time label and the description. -/
structure Widget where
  total_seconds : Int
  session_start : Option Int
  time_label : String
  description : String

/-- `start_timer` (source lines 226-230): only acts when no session is
running (`session_start is None`); records `now` as the session start.
When a session is already running nothing changes. -/
def start_timer (w : Widget) (now : Int) : Widget :=
  match w.session_start with
  | none => { w with session_start := some now }
  | some _ => w

/-- `stop_timer` (source lines 232-243): when running, adds
`int((now - session_start).total_seconds())` — the raw, unclamped delta —
to `total_seconds`, clears the session and re-renders the label.  When
stopped it does nothing. -/
def stop_timer (w : Widget) (now : Int) : Widget :=
  match w.session_start with
  | none => w
  | some t0 =>
    { w with
      total_seconds := w.total_seconds + (now - t0)
      session_start := none
      time_label := format_seconds (w.total_seconds + (now - t0)) }

/-- `update_time_display` (source lines 245-251): compute the live display
value (`total_seconds` plus the running delta, zero when stopped) and write
it to the time label.  Only the label changes. -/
def update_time_display (w : Widget) (now : Int) : Widget :=
  let elapsed : Int :=
    match w.session_start with
    | none => 0
    | some t0 => now - t0
  { w with time_label := format_seconds (w.total_seconds + elapsed) }

/-- The session teardown inside `confirm_delete.do_delete` (source lines
312-316): the session start is discarded without touching
`total_seconds` — the elapsed time is never committed. -/
def discard_session (w : Widget) : Widget :=
  { w with session_start := none }

/-- The store mutation of `confirm_delete.do_delete` (source lines 324-329):
when the date key holds a day record containing the task, the task entry is
deleted, and the date key too when the day record became empty; in every
other case the persisted store is left unchanged (the source either skips
the save or aborts into the error popup without saving). -/
def delete_task (data : Obj) (date task : String) : Obj :=
  match Dict.get? data date with
  | some (.jobj day) =>
    if Dict.hasKey day task then
      let day2 := Dict.erase day task
      if day2.isEmpty then Dict.erase data date
      else Dict.set data date (.jobj day2)
    else data
  | _ => data

/-- The fresh entry `{"seconds": 0, "description": ""}` (source line 711). -/
def newEntry : JVal :=
  .jobj [("seconds", .jnum 0), ("description", .jstr "")]

/-- The store mutation of `add_task` (source lines 699-717): strip the
input; an empty result is a no-op.  Otherwise ensure the date key exists and
create the entry only when the task name is absent; when it is present the
source skips the save, so the persisted store is unchanged.  A non-dict day
value makes the membership test or item assignment raise into the handler,
which saves nothing — also modelled as leaving the store unchanged. -/
def add_task (data : Obj) (date rawName : String) : Obj :=
  if pyStrip rawName = "" then data
  else
    match Dict.get? data date with
    | none => data ++ [(date, .jobj [(pyStrip rawName, newEntry)])]
    | some (.jobj day) =>
      if Dict.hasKey day (pyStrip rawName) then data
      else Dict.set data date (.jobj (day ++ [(pyStrip rawName, newEntry)]))
    | some _ => data

/-! ### AggregationEngine: the rollup loop shared by
`build_summary_screen` (source lines 763-789) and `export_csv_all`
(source lines 1015-1044). -/

/-- `int(info.get("seconds", 0) or 0)`: the seconds of one task entry.  A
non-dict entry or a missing/falsy `"seconds"` value yields 0 (the summary
path turns any failure into 0 via its `except`); on the §3 store shape the
value is an integer and is returned unchanged. -/
def entrySeconds (info : JVal) : Int :=
  match info with
  | .jobj e =>
    match Dict.get? e "seconds" with
    | some (.jnum n) => n
    | _ => 0
  | _ => 0

/-- One aggregation entry: cumulative `total_seconds` and the `per_day`
dict (date key ↦ positive seconds). -/
abbrev AggEntry := Int × Dict Int

/-- The inner loop body over one day's `(tname, info)` items (source lines
770-781 / 1022-1030): skip `_note`; otherwise create the entry on first
encounter, add the seconds to the total, and record the date in `per_day`
only when the seconds are positive. -/
def aggStep (date : String) (agg : Dict AggEntry) (q : String × JVal) :
    Dict AggEntry :=
  if q.1 == "_note" then agg
  else
    let sec := entrySeconds q.2
    let cur := (Dict.get? agg q.1).getD (0, [])
    Dict.set agg q.1
      (cur.1 + sec, if 0 < sec then Dict.set cur.2 date sec else cur.2)

/-- The outer loop body over `(date_str, tasks)` (source lines 767-769 /
1019-1021): a date whose value is not a dict is skipped. -/
def dayStep (agg : Dict AggEntry) (p : String × JVal) : Dict AggEntry :=
  match p.2 with
  | .jobj tasks => tasks.foldl (aggStep p.1) agg
  | _ => agg

/-- The full cross-date rollup `agg` built by both `build_summary_screen`
and `export_csv_all` (identical loops; they differ only in that the CSV
path would raise on malformed seconds values, which the well-formedness
hypotheses of the theorems exclude). -/
def aggregate (data : Obj) : Dict AggEntry :=
  data.foldl dayStep []

/-! Spec-side characterization of the rollup, written from §4.3 of the
spec: per task name, walk the `(date_key, task_name, entry)` triples in
store order, total the seconds, and keep only the positive days. -/

/-- The entry a day's value holds for `name`: `none` when the day value is
not a day-record mapping or lacks the name. -/
def dayEntry (v : JVal) (name : String) : Option JVal :=
  match v with
  | .jobj tasks => Dict.get? tasks name
  | _ => none

/-- Spec §4.3: `total_seconds` of one task = the sum of its entry seconds
over all dates (absent dates and non-mapping day values contribute 0). -/
def specTotal (data : Obj) (name : String) : Int :=
  match data with
  | [] => 0
  | p :: rest => ((dayEntry p.2 name).map entrySeconds).getD 0 + specTotal rest name

/-- Spec §4.3: the `per_day` breakdown of one task = the dates (in store
order) whose entry seconds are positive, with those seconds. -/
def specPD (data : Obj) (name : String) : Dict Int :=
  match data with
  | [] => []
  | p :: rest =>
    (match (dayEntry p.2 name).map entrySeconds with
     | some s => if 0 < s then [(p.1, s)] else []
     | none => []) ++ specPD rest name

/-- Whether a task name occurs (as a non-`_note` entry key of a day-record
value) anywhere in the store. -/
def occurs (data : Obj) (name : String) : Bool :=
  data.any (fun p => (dayEntry p.2 name).isSome)

/-- The task names of one day's items not yet seen, in item order (the
order Python first encounters them). -/
def encounterDay (ts : Dict JVal) (seen : List String) : List String :=
  match ts with
  | [] => []
  | q :: rest =>
    if q.1 == "_note" || seen.contains q.1 then encounterDay rest seen
    else q.1 :: encounterDay rest (seen ++ [q.1])

/-- The not-yet-seen task names of the whole store in first-encounter
order: the key order of the Python `agg` dict. -/
def encounterNew (data : Obj) (seen : List String) : List String :=
  match data with
  | [] => []
  | p :: rest =>
    match p.2 with
    | .jobj ts =>
      let new := encounterDay ts seen
      new ++ encounterNew rest (seen ++ new)
    | _ => encounterNew rest seen

/-- All task names of the store in first-encounter order. -/
def encounterNames (data : Obj) : List String := encounterNew data []

/-! ### ChartDataBuilder (source lines 841-861 and 902-927) -/

/-- The per-task summation inside one day of `build_charts_screen` (source
lines 845-854): every non-`_note` entry's seconds are added. -/
def sumSeconds (ts : Dict JVal) : Int :=
  ts.foldl (fun s q => if q.1 == "_note" then s else s + entrySeconds q.2) 0

/-- `per_date_seconds` of `build_charts_screen`: one entry per date key,
iterated over `sorted(data.keys())`.  A non-mapping day value would raise
in the source (no `isinstance` guard on this path); the charts
well-formedness hypothesis excludes it, and 0 stands in here. -/
def per_date_seconds (data : Obj) : List (String × Int) :=
  (pySorted (Dict.keys data)).map (fun d =>
    (d,
      match Dict.get? data d with
      | some (.jobj ts) => sumSeconds ts
      | _ => 0))

/-- The chart-ready series of `generate_line_chart` (source lines 902-927):
the dates with `hours = seconds / 3600.0`.  Real arithmetic is modelled in
`ℚ`; the stored unit stays whole seconds. -/
def dailyHoursSeries (data : Obj) : List (String × ℚ) :=
  (per_date_seconds data).map (fun p => (p.1, (p.2 : ℚ) / 3600))

/-! ### ExportFormatter: `export_csv_all` (source lines 1015-1044) -/

/-- The CSV header row (source line 1032). -/
def csvHeader : String := "task_name,total_seconds,days_count,per_day_breakdown"

/-- The quoted, semicolon-joined `date:seconds` breakdown field, over the
sorted per-day keys (source line 1034). -/
def breakdownField (pd : Dict Int) : String :=
  String.intercalate ";"
    ((pySorted (Dict.keys pd)).map (fun d =>
      d ++ ":" ++ toString ((Dict.get? pd d).getD 0)))

/-- One data row (source line 1035): quoted task name, total, day count,
quoted breakdown. -/
def csvRow (tname : String) (e : AggEntry) : String :=
  "\"" ++ tname ++ "\"," ++ toString e.1 ++ "," ++ toString e.2.length
    ++ ",\"" ++ breakdownField e.2 ++ "\""

/-- The lines of the exported CSV: the header, then one row per `agg` item
in `agg.items()` order (source lines 1032-1035). -/
def export_csv_lines (data : Obj) : List String :=
  csvHeader :: (aggregate data).map (fun t => csvRow t.1 t.2)

/-! ### Well-formedness of stores (the §3 data-model shape) -/

/-- A stored task entry is a mapping whose `"seconds"` value, when present,
is an integer — the shape §3 gives to `TaskEntry` (and the shape
`save_task_time` writes). -/
def entryOK (v : JVal) : Bool :=
  match v with
  | .jobj e =>
    match Dict.get? e "seconds" with
    | none => true
    | some (.jnum _) => true
    | some _ => false
  | _ => false

/-- A day record: unique keys, and every non-`_note` item a task entry. -/
def dayOK (ts : Dict JVal) : Bool :=
  decide (Dict.keys ts).Nodup && ts.all (fun q => q.1 == "_note" || entryOK q.2)

/-- Store shape for the aggregation claims: unique date keys, and every
date value that is a mapping is a well-formed day record (non-mapping date
values are allowed — the loops skip them). -/
def storeOK (data : Obj) : Bool :=
  decide (Dict.keys data).Nodup &&
    data.all (fun p =>
      match p.2 with
      | .jobj ts => dayOK ts
      | _ => true)

/-- Store shape for the charts claim: additionally every date value is a
mapping (the charts path has no `isinstance` guard). -/
def storeOKCharts (data : Obj) : Bool :=
  decide (Dict.keys data).Nodup &&
    data.all (fun p =>
      match p.2 with
      | .jobj ts => dayOK ts
      | _ => false)

/-! ### Concrete stores used by the spec's examples -/

/-- A task entry with the given seconds and an empty description. -/
def entryOf (n : Int) : JVal :=
  .jobj [("seconds", .jnum n), ("description", .jstr "")]

/-- The §8 store `{"2024-01-01": {"Write": 3600}, "2024-01-02":
{"Write": 1800, "Read": 0}}`. -/
def exStore : Obj :=
  [ ("2024-01-01", .jobj [("Write", entryOf 3600)]),
    ("2024-01-02", .jobj [("Write", entryOf 1800), ("Read", entryOf 0)]) ]

/-- The §8 charts store: one date totalling 7200 seconds. -/
def exChartsStore : Obj :=
  [ ("2024-02-01", .jobj [("Write", entryOf 3600), ("Read", entryOf 3600)]) ]

/-! ### Order lemmas for the Python string order -/

theorem lexLt_asymm : ∀ x y : List Nat, lexLt x y = true → lexLt y x = false := by
  intro x
  induction x with
  | nil =>
    intro y h
    cases y with
    | nil => simp [lexLt] at h
    | cons b bs => simp [lexLt]
  | cons a as ih =>
    intro y h
    cases y with
    | nil => simp [lexLt] at h
    | cons b bs =>
      by_cases h1 : a < b
      · have hba : ¬ b < a := by omega
        simp [lexLt, hba, h1]
      · by_cases h2 : b < a
        · simp [lexLt, h1, h2] at h
        · simp only [lexLt, if_neg h1, if_neg h2] at h
          simp only [lexLt, if_neg h2, if_neg h1]
          exact ih bs h

theorem lexLt_trans : ∀ x y z : List Nat,
    lexLt x y = true → lexLt y z = true → lexLt x z = true := by
  intro x
  induction x with
  | nil =>
    intro y z hxy hyz
    cases y with
    | nil => simp [lexLt] at hxy
    | cons b bs =>
      cases z with
      | nil => simp [lexLt] at hyz
      | cons c cs => simp [lexLt]
  | cons a as ih =>
    intro y z hxy hyz
    cases y with
    | nil => simp [lexLt] at hxy
    | cons b bs =>
      cases z with
      | nil => simp [lexLt] at hyz
      | cons c cs =>
        by_cases h1 : a < b
        · by_cases h2 : b < c
          · have : a < c := by omega
            simp [lexLt, this]
          · by_cases h2' : c < b
            · simp [lexLt, h2, h2'] at hyz
            · have : a < c := by omega
              simp [lexLt, this]
        · by_cases h1' : b < a
          · simp [lexLt, h1, h1'] at hxy
          · by_cases h2 : b < c
            · have : a < c := by omega
              simp [lexLt, this]
            · by_cases h2' : c < b
              · simp [lexLt, h2, h2'] at hyz
              · have hac : ¬ a < c := by omega
                have hca : ¬ c < a := by omega
                simp only [lexLt, if_neg h1, if_neg h1'] at hxy
                simp only [lexLt, if_neg h2, if_neg h2'] at hyz
                simp only [lexLt, if_neg hac, if_neg hca]
                exact ih bs cs hxy hyz

theorem lexLt_eq_of_not : ∀ x y : List Nat,
    lexLt x y = false → lexLt y x = false → x = y := by
  intro x
  induction x with
  | nil =>
    intro y h1 _
    cases y with
    | nil => rfl
    | cons b bs => simp [lexLt] at h1
  | cons a as ih =>
    intro y h1 h2
    cases y with
    | nil => simp [lexLt] at h2
    | cons b bs =>
      by_cases h3 : a < b
      · simp [lexLt, h3] at h1
      · by_cases h4 : b < a
        · simp [lexLt, h4] at h2
        · have hab : a = b := by omega
          subst hab
          simp only [lexLt, if_neg h3, if_neg h4] at h1 h2
          rw [ih bs h1 h2]

instance : IsTotal String (fun a b => pyLe a b = true) := by
  constructor
  intro a b
  simp only [pyLe, Bool.not_eq_true']
  cases h : lexLt (codes b) (codes a)
  · left; rfl
  · right; exact lexLt_asymm _ _ h

instance : IsTrans String (fun a b => pyLe a b = true) := by
  constructor
  intro a b c hab hbc
  simp only [pyLe, Bool.not_eq_true'] at hab hbc ⊢
  cases hca : lexLt (codes c) (codes a)
  · rfl
  · exfalso
    cases hab' : lexLt (codes a) (codes b)
    · have : codes a = codes b := lexLt_eq_of_not _ _ hab' hab
      rw [this] at hca
      rw [hca] at hbc
      exact Bool.noConfusion hbc
    · have := lexLt_trans _ _ _ hca hab'
      rw [this] at hbc
      exact Bool.noConfusion hbc

/-- `pySorted` output is ascending in the Python string order. -/
theorem pySorted_sorted (l : List String) :
    List.Sorted (fun a b => pyLe a b = true) (pySorted l) :=
  List.sorted_insertionSort _ l

/-- `pySorted` permutes its input: the same strings, same multiplicity. -/
theorem pySorted_perm (l : List String) : (pySorted l).Perm l :=
  List.perm_insertionSort _ l

/-! ### Dict lemmas -/

theorem Dict.get?_cons (p : String × α) (d : Dict α) (k : String) :
    Dict.get? (p :: d) k = if p.1 == k then some p.2 else Dict.get? d k := by
  by_cases h : p.1 == k <;> simp [Dict.get?, List.find?, h]

theorem Dict.get?_nil (k : String) : Dict.get? ([] : Dict α) k = none := rfl

theorem Dict.get?_append (d₁ d₂ : Dict α) (k : String) :
    Dict.get? (d₁ ++ d₂) k =
      match Dict.get? d₁ k with
      | some v => some v
      | none => Dict.get? d₂ k := by
  induction d₁ with
  | nil => simp [Dict.get?_nil]
  | cons p rest ih =>
    rw [List.cons_append, Dict.get?_cons, Dict.get?_cons]
    by_cases hp : p.1 == k <;> simp [hp, ih]

theorem Dict.get?_replace (d : Dict α) (k : String) (v : α) (k' : String) :
    Dict.get? (d.map (fun p => if p.1 == k then (k, v) else p)) k' =
      if k = k' then (Dict.get? d k).map (fun _ => v) else Dict.get? d k' := by
  induction d with
  | nil => by_cases h : k = k' <;> simp [Dict.get?_nil, h]
  | cons p rest ih =>
    simp only [beq_iff_eq] at ih ⊢
    rw [List.map_cons]
    by_cases hp : p.1 = k
    · rw [if_pos hp, Dict.get?_cons, Dict.get?_cons]
      by_cases hk : k = k'
      · subst hk
        simp [hp, ih]
      · have h1 : (k == k') = false := by simpa using hk
        have h2 : (p.1 == k') = false := by rw [hp]; simpa using hk
        simp [h1, h2, ih, hk, Dict.get?_cons]
    · rw [if_neg hp, Dict.get?_cons, Dict.get?_cons]
      by_cases hk : k = k'
      · subst hk
        have h2 : (p.1 == k) = false := by simpa using hp
        simp [h2, ih]
      · by_cases hp' : p.1 = k'
        · simp [hp', ih, hk, Dict.get?_cons]
        · have h2 : (p.1 == k') = false := by simpa using hp'
          simp [h2, ih, hk, Dict.get?_cons]

theorem Dict.get?_set_self (d : Dict α) (k : String) (v : α) :
    Dict.get? (Dict.set d k v) k = some v := by
  unfold Dict.set
  by_cases h : Dict.hasKey d k
  · rw [if_pos h, Dict.get?_replace, if_pos rfl]
    unfold Dict.hasKey at h
    cases hv : Dict.get? d k
    · rw [hv] at h; exact Bool.noConfusion h
    · simp
  · rw [if_neg h, Dict.get?_append]
    unfold Dict.hasKey at h
    cases hv : Dict.get? d k
    · simp [Dict.get?_cons]
    · rw [hv] at h; simp at h

theorem Dict.get?_set_ne (d : Dict α) (k k' : String) (v : α) (h : k ≠ k') :
    Dict.get? (Dict.set d k v) k' = Dict.get? d k' := by
  unfold Dict.set
  by_cases hk : Dict.hasKey d k
  · rw [if_pos hk, Dict.get?_replace, if_neg h]
  · rw [if_neg hk, Dict.get?_append]
    cases hv : Dict.get? d k'
    · rw [Dict.get?_cons]
      have : (k == k') = false := by simpa using h
      simp [this, Dict.get?_nil]
    · simp

theorem Dict.keys_append (d₁ d₂ : Dict α) :
    Dict.keys (d₁ ++ d₂) = Dict.keys d₁ ++ Dict.keys d₂ := by
  simp [Dict.keys]

theorem Dict.keys_set (d : Dict α) (k : String) (v : α) :
    Dict.keys (Dict.set d k v) =
      if Dict.hasKey d k then Dict.keys d else Dict.keys d ++ [k] := by
  unfold Dict.set
  by_cases h : Dict.hasKey d k
  · rw [if_pos h, if_pos h]
    unfold Dict.keys
    rw [List.map_map]
    apply List.map_congr_left
    intro q _
    by_cases hq : q.1 = k
    · simp [hq]
    · have : (q.1 == k) = false := by simpa using hq
      simp [this, hq]
  · rw [if_neg h, if_neg h, Dict.keys_append]
    rfl

theorem Dict.hasKey_iff_exists (d : Dict α) (k : String) :
    Dict.hasKey d k = true ↔ ∃ v, Dict.get? d k = some v := by
  unfold Dict.hasKey
  cases h : Dict.get? d k <;> simp

theorem Dict.hasKey_eq_false_iff (d : Dict α) (k : String) :
    Dict.hasKey d k = false ↔ Dict.get? d k = none := by
  unfold Dict.hasKey
  cases h : Dict.get? d k <;> simp

theorem Dict.get?_eq_none_of_not_mem_keys (d : Dict α) (k : String)
    (h : k ∉ Dict.keys d) : Dict.get? d k = none := by
  induction d with
  | nil => rfl
  | cons p rest ih =>
    simp only [Dict.keys, List.map_cons, List.mem_cons, not_or] at h
    rw [Dict.get?_cons]
    have : (p.1 == k) = false := by
      simp only [beq_eq_false_iff_ne, ne_eq]
      exact fun e => h.1 e.symm
    simp only [this, if_false]
    exact ih (by simpa [Dict.keys] using h.2)

theorem Dict.mem_keys_of_get? (d : Dict α) (k : String) (v : α)
    (h : Dict.get? d k = some v) : k ∈ Dict.keys d := by
  by_contra hk
  rw [Dict.get?_eq_none_of_not_mem_keys d k hk] at h
  exact Option.noConfusion h

theorem Dict.get?_first (p : String × α) (d : Dict α) :
    Dict.get? (p :: d) p.1 = some p.2 := by
  rw [Dict.get?_cons]
  simp

theorem Dict.erase_cons (p : String × α) (d : Dict α) (k : String) :
    Dict.erase (p :: d) k =
      if p.1 = k then Dict.erase d k else p :: Dict.erase d k := by
  unfold Dict.erase
  by_cases hp : p.1 = k
  · simp [List.filter_cons, hp]
  · simp [List.filter_cons, hp]

theorem Dict.get?_erase_self (d : Dict α) (k : String) :
    Dict.get? (Dict.erase d k) k = none := by
  induction d with
  | nil => rfl
  | cons p rest ih =>
    rw [Dict.erase_cons]
    by_cases hp : p.1 = k
    · rw [if_pos hp]
      exact ih
    · rw [if_neg hp, Dict.get?_cons]
      have hb : (p.1 == k) = false := by simpa using hp
      simp [hb, ih]

theorem Dict.get?_erase_ne (d : Dict α) (k k' : String) (h : k ≠ k') :
    Dict.get? (Dict.erase d k) k' = Dict.get? d k' := by
  induction d with
  | nil => rfl
  | cons p rest ih =>
    rw [Dict.erase_cons]
    by_cases hp : p.1 = k
    · rw [if_pos hp, ih, Dict.get?_cons]
      have hb : (p.1 == k') = false := by
        simp only [beq_eq_false_iff_ne, ne_eq, hp]
        exact h
      simp [hb]
    · rw [if_neg hp, Dict.get?_cons, Dict.get?_cons, ih]

theorem Dict.erase_of_not_hasKey (d : Dict α) (k : String)
    (h : Dict.hasKey d k = false) : Dict.erase d k = d := by
  induction d with
  | nil => rfl
  | cons p rest ih =>
    unfold Dict.hasKey at h ih
    rw [Dict.get?_cons] at h
    by_cases hp : p.1 = k
    · have : (p.1 == k) = true := by simpa using hp
      simp [this] at h
    · have hb : (p.1 == k) = false := by simpa using hp
      simp only [hb, if_false] at h
      rw [Dict.erase_cons, if_neg hp, ih h]

theorem Dict.length_erase_ge (d : Dict α) (k : String)
    (hnd : (Dict.keys d).Nodup) : d.length ≤ (Dict.erase d k).length + 1 := by
  induction d with
  | nil => simp
  | cons p rest ih =>
    simp only [Dict.keys, List.map_cons, List.nodup_cons] at hnd
    rw [Dict.erase_cons]
    by_cases hp : p.1 = k
    · have hnk : Dict.hasKey rest k = false := by
        rw [Dict.hasKey_eq_false_iff]
        apply Dict.get?_eq_none_of_not_mem_keys
        rw [← hp]
        exact hnd.1
      rw [if_pos hp, Dict.erase_of_not_hasKey rest k hnk]
      simp
    · rw [if_neg hp]
      have := ih (by simpa [Dict.keys] using hnd.2)
      simp only [List.length_cons]
      omega

theorem Dict.get?_mem (d : Dict α) (k : String) (v : α)
    (h : Dict.get? d k = some v) : (k, v) ∈ d := by
  induction d with
  | nil => simp [Dict.get?_nil] at h
  | cons p rest ih =>
    rw [Dict.get?_cons] at h
    by_cases hp : p.1 = k
    · have : (p.1 == k) = true := by simpa using hp
      simp only [this, if_true, Option.some.injEq] at h
      rw [← hp, ← h]
      exact List.Mem.head _
    · have : (p.1 == k) = false := by simpa using hp
      simp only [this, if_false] at h
      right
      exact ih h

/-! ### Claim theorems: persistence and timer session -/

/-- Claim C1, counterexample: `stop_timer` does not clamp a negative
elapsed value.  With stored seconds 100, a session started at t=50 and the
wall clock rolled back to t=10, stopping stores 100 + (10 - 50) = 60: the
stored cumulative seconds decreased through `stop()`, contradicting the
claim. -/
theorem claim_C1_counterexample :
    (stop_timer ⟨100, some 50, "0:01:40", ""⟩ 10).total_seconds = 60
    ∧ ((60 : Int) < 100) := by
  constructor
  · rfl
  · decide

/-- Claim C1 (amended): `stop_timer` on a running session adds the raw,
unclamped delta `now - started_at` to the stored seconds and clears the
session; the stored value never decreases provided the clock did not roll
back (`started_at ≤ now`).  The source has no clamp, so a rollback can
decrease the stored value. -/
theorem claim_C1_amended (w : Widget) (now t0 : Int)
    (h : w.session_start = some t0) :
    (stop_timer w now).total_seconds = w.total_seconds + (now - t0)
    ∧ (stop_timer w now).session_start = none
    ∧ (t0 ≤ now → w.total_seconds ≤ (stop_timer w now).total_seconds) := by
  have e : stop_timer w now =
      { w with
        total_seconds := w.total_seconds + (now - t0)
        session_start := none
        time_label := format_seconds (w.total_seconds + (now - t0)) } := by
    unfold stop_timer
    rw [h]
  rw [e]
  refine ⟨rfl, rfl, fun hle => ?_⟩
  show w.total_seconds ≤ w.total_seconds + (now - t0)
  omega

/-- Witness for C1 (amended) at a concrete forward-clock run. -/
theorem claim_C1_amended_witness :
    (stop_timer ⟨7, some 3, "", ""⟩ 10).total_seconds = 7 + (10 - 3)
    ∧ (stop_timer ⟨7, some 3, "", ""⟩ 10).session_start = none := by
  have h := claim_C1_amended ⟨7, some 3, "", ""⟩ 10 3 rfl
  exact ⟨h.1, h.2.1⟩

/-- Claim C3: `safe_load_data` returns an empty store without touching the
file when the file is absent; on unparseable content or a parsed non-object
root it renames the file to the timestamped backup, logs the failure and
returns an empty store; and in every case the caller receives a store, never
a parse error — the store is empty unless the file held an object root. -/
theorem claim_C3 (now : Int) :
    safe_load_data none now = ⟨[], none, false⟩
    ∧ safe_load_data (some .bad) now = ⟨[], some (backupName now), true⟩
    ∧ (∀ v : JVal, (∀ m, v ≠ .jobj m) →
        safe_load_data (some (.val v)) now = ⟨[], some (backupName now), true⟩)
    ∧ (∀ f, (safe_load_data f now).store = []
        ∨ ∃ m, f = some (.val (.jobj m)) ∧ (safe_load_data f now).store = m) := by
  refine ⟨rfl, rfl, ?_, ?_⟩
  · intro v hv
    cases v with
    | jobj m => exact absurd rfl (hv m)
    | jstr s => rfl
    | jnum n => rfl
    | jbool b => rfl
    | jnull => rfl
    | jarr l => rfl
  · intro f
    match f with
    | none => exact Or.inl rfl
    | some .bad => exact Or.inl rfl
    | some (.val (.jobj m)) => exact Or.inr ⟨m, rfl, rfl⟩
    | some (.val (.jstr s)) => exact Or.inl rfl
    | some (.val (.jnum n)) => exact Or.inl rfl
    | some (.val (.jbool b)) => exact Or.inl rfl
    | some (.val .jnull) => exact Or.inl rfl
    | some (.val (.jarr l)) => exact Or.inl rfl

/-- Witness for C3: the spec's §8 example — a file holding the scalar
`"not a json object"` loads as an empty store with a backup rename and a
logged failure. -/
theorem claim_C3_witness :
    safe_load_data (some (.val (.jstr "not a json object"))) 1700000000 =
      ⟨[], some (backupName 1700000000), true⟩ :=
  (claim_C3 1700000000).2.2.1 (.jstr "not a json object")
    (fun _ h => JVal.noConfusion h)

/-- Claim C5: round-trip identity.  For any previously-saved store (the
file holds exactly `save_data m`, nested day records, task entries and
`_note` keys included in `m`), loading recovers `m` unchanged with no
backup and no logged error, and saving the loaded value rewrites exactly
the same file content. -/
theorem claim_C5 (m : Obj) (now : Int) :
    save_data (safe_load_data (save_data m) now).store = save_data m
    ∧ (safe_load_data (save_data m) now).store = m
    ∧ (safe_load_data (save_data m) now).backup = none
    ∧ (safe_load_data (save_data m) now).logged = false :=
  ⟨rfl, rfl, rfl, rfl⟩

/-- Claim C6: deleting a task removes exactly its entry from the day
record, drops the date key precisely when the record becomes empty (which
with unique keys happens exactly when the task was the only entry), leaves
every other date and every other entry (including `_note`) untouched, and
discards a running session without committing its elapsed time. -/
theorem claim_C6 (data : Obj) (date task : String) (day : Dict JVal)
    (w : Widget)
    (hday : (Dict.keys day).Nodup)
    (hdate : Dict.get? data date = some (.jobj day))
    (htask : Dict.hasKey day task = true) :
    (∀ d, d ≠ date → Dict.get? (delete_task data date task) d = Dict.get? data d)
    ∧ (Dict.get? (delete_task data date task) date =
        if (Dict.erase day task).isEmpty then none
        else some (.jobj (Dict.erase day task)))
    ∧ Dict.get? (Dict.erase day task) task = none
    ∧ (∀ k, k ≠ task → Dict.get? (Dict.erase day task) k = Dict.get? day k)
    ∧ (day.length = 1 → (Dict.erase day task).isEmpty = true)
    ∧ (1 < day.length → (Dict.erase day task).isEmpty = false)
    ∧ (discard_session w).total_seconds = w.total_seconds
    ∧ (discard_session w).session_start = none := by
  have hdel : delete_task data date task =
      (if (Dict.erase day task).isEmpty then Dict.erase data date
       else Dict.set data date (.jobj (Dict.erase day task))) := by
    unfold delete_task
    rw [hdate]
    simp only [htask, if_true]
  refine ⟨?_, ?_, Dict.get?_erase_self day task,
    fun k hk => Dict.get?_erase_ne day task k (fun e => hk e.symm), ?_, ?_, rfl, rfl⟩
  · intro d hd
    rw [hdel]
    by_cases he : (Dict.erase day task).isEmpty
    · rw [if_pos he, Dict.get?_erase_ne data date d (fun e => hd e.symm)]
    · rw [if_neg he, Dict.get?_set_ne data date d _ (fun e => hd e.symm)]
  · rw [hdel]
    by_cases he : (Dict.erase day task).isEmpty
    · rw [if_pos he, if_pos he, Dict.get?_erase_self]
    · rw [if_neg he, if_neg he, Dict.get?_set_self]
  · intro hlen
    match day, hlen with
    | [p], _ =>
      rw [Dict.erase_cons]
      obtain ⟨v, hv⟩ := (Dict.hasKey_iff_exists [p] task).mp htask
      rw [Dict.get?_cons] at hv
      by_cases hp : p.1 = task
      · rw [if_pos hp]
        rfl
      · have : (p.1 == task) = false := by simpa using hp
        simp [this, Dict.get?_nil] at hv
  · intro hlen
    have := Dict.length_erase_ge day task hday
    cases he : Dict.erase day task with
    | nil =>
      rw [he] at this
      simp at this
      omega
    | cons q rest => rfl

/-- Witness for C6: deleting `Read` from the two-task day of the §8 store
leaves the other date intact, keeps the date key (a task remains), and a
running session's seconds are not committed. -/
theorem claim_C6_witness :
    Dict.get? (delete_task exStore "2024-01-02" "Read") "2024-01-01"
      = Dict.get? exStore "2024-01-01"
    ∧ (discard_session ⟨5, some 2, "x", ""⟩).total_seconds = 5 := by
  have h := claim_C6 exStore "2024-01-02" "Read"
      [("Write", entryOf 1800), ("Read", entryOf 0)] ⟨5, some 2, "x", ""⟩
      (by decide) rfl rfl
  exact ⟨h.1 "2024-01-01" (by decide), h.2.2.2.2.2.2.1⟩

/-- Claim C7: the display refresh is a pure read of the session — it
re-renders the label from `seconds` plus the live delta (zero when
stopped), and never mutates the stored seconds, the session start or the
description; repeated refreshes leave the stored value unchanged. -/
theorem claim_C7 (w : Widget) (now now2 t0 : Int) :
    (update_time_display w now).total_seconds = w.total_seconds
    ∧ (update_time_display w now).session_start = w.session_start
    ∧ (update_time_display w now).description = w.description
    ∧ (w.session_start = none →
        (update_time_display w now).time_label = format_seconds w.total_seconds)
    ∧ (w.session_start = some t0 →
        (update_time_display w now).time_label
          = format_seconds (w.total_seconds + (now - t0)))
    ∧ (update_time_display (update_time_display w now) now2).total_seconds
        = w.total_seconds := by
  refine ⟨rfl, rfl, rfl, ?_, ?_, rfl⟩
  · intro h
    simp [update_time_display, h]
  · intro h
    simp [update_time_display, h]

/-- Witness for C7 on a concrete running session: the label shows the
cumulative seconds plus the live delta while the stored seconds stay 30. -/
theorem claim_C7_witness :
    (update_time_display ⟨30, some 100, "", ""⟩ 107).time_label
      = format_seconds (30 + (107 - 100))
    ∧ (update_time_display ⟨30, some 100, "", ""⟩ 107).total_seconds = 30 := by
  have h := claim_C7 ⟨30, some 100, "", ""⟩ 107 0 100
  exact ⟨h.2.2.2.2.1 rfl, h.1⟩

/-- Claim C8: starting is a no-op on a running session (every field
unchanged, so the first session start stands and at most one session per
task exists), and from the stopped state it records `now` as the session
start and changes nothing else. -/
theorem claim_C8 (w : Widget) (now : Int) :
    (∀ t0, w.session_start = some t0 → start_timer w now = w)
    ∧ (w.session_start = none →
        start_timer w now = { w with session_start := some now }) := by
  constructor
  · intro t0 h
    simp [start_timer, h]
  · intro h
    simp [start_timer, h]

/-- Witness for C8: starting an already-running widget changes nothing;
starting a stopped one records the timestamp. -/
theorem claim_C8_witness :
    start_timer ⟨5, some 3, "", ""⟩ 99 = ⟨5, some 3, "", ""⟩
    ∧ start_timer ⟨5, none, "", ""⟩ 99 = ⟨5, some 99, "", ""⟩ :=
  ⟨(claim_C8 ⟨5, some 3, "", ""⟩ 99).1 3 rfl, (claim_C8 ⟨5, none, "", ""⟩ 99).2 rfl⟩

/-- Claim C10: `add_task` is idempotent on the store.  A whitespace-only
name is a no-op; when the (stripped) name already exists under the date the
store is left entirely unchanged (the stored seconds and description are
not reset); a new entry `{seconds: 0, description: ""}` is appended only
when the name is absent; and applying the operation twice equals applying
it once. -/
theorem claim_C10 (data : Obj) (date raw : String) :
    (pyStrip raw = "" → add_task data date raw = data)
    ∧ (∀ day, Dict.get? data date = some (.jobj day) →
        Dict.hasKey day (pyStrip raw) = true → add_task data date raw = data)
    ∧ (∀ day, pyStrip raw ≠ "" → Dict.get? data date = some (.jobj day) →
        Dict.hasKey day (pyStrip raw) = false →
        add_task data date raw
          = Dict.set data date (.jobj (day ++ [(pyStrip raw, newEntry)])))
    ∧ (pyStrip raw ≠ "" → Dict.get? data date = none →
        add_task data date raw = data ++ [(date, .jobj [(pyStrip raw, newEntry)])])
    ∧ add_task (add_task data date raw) date raw = add_task data date raw := by
  refine ⟨?_, ?_, ?_, ?_, ?_⟩
  · intro h
    simp [add_task, h]
  · intro day hdate hk
    by_cases h : pyStrip raw = ""
    · simp [add_task, h]
    · simp [add_task, h, hdate, hk]
  · intro day h hdate hk
    simp [add_task, h, hdate, hk]
  · intro h hdate
    simp [add_task, h, hdate]
  · by_cases h : pyStrip raw = ""
    · simp [add_task, h]
    · cases hdate : Dict.get? data date with
      | none =>
        have h1 : add_task data date raw
            = data ++ [(date, .jobj [(pyStrip raw, newEntry)])] := by
          simp [add_task, h, hdate]
        have h2 : Dict.get? (data ++ [(date, .jobj [(pyStrip raw, newEntry)])]) date
            = some (.jobj [(pyStrip raw, newEntry)]) := by
          rw [Dict.get?_append, hdate, Dict.get?_cons]
          simp
        have h3 : Dict.hasKey [(pyStrip raw, newEntry)] (pyStrip raw) = true := by
          unfold Dict.hasKey
          rw [Dict.get?_cons]
          simp
        rw [h1]
        simp [add_task, h, h2, h3]
      | some v =>
        cases v with
        | jobj day =>
          by_cases hk : Dict.hasKey day (pyStrip raw)
          · have h1 : add_task data date raw = data := by
              simp [add_task, h, hdate, hk]
            rw [h1, h1]
          · have h1 : add_task data date raw
                = Dict.set data date (.jobj (day ++ [(pyStrip raw, newEntry)])) := by
              simp [add_task, h, hdate, hk]
            have h2 : Dict.get?
                (Dict.set data date (.jobj (day ++ [(pyStrip raw, newEntry)]))) date
                = some (.jobj (day ++ [(pyStrip raw, newEntry)])) :=
              Dict.get?_set_self data date _
            have hknone : Dict.get? day (pyStrip raw) = none :=
              (Dict.hasKey_eq_false_iff _ _).mp (by simpa using hk)
            have h3 : Dict.hasKey (day ++ [(pyStrip raw, newEntry)]) (pyStrip raw)
                = true := by
              unfold Dict.hasKey
              rw [Dict.get?_append, hknone, Dict.get?_cons]
              simp
            rw [h1]
            simp [add_task, h, h2, h3]
        | jstr s =>
          have h1 : add_task data date raw = data := by simp [add_task, h, hdate]
          rw [h1, h1]
        | jnum n =>
          have h1 : add_task data date raw = data := by simp [add_task, h, hdate]
          rw [h1, h1]
        | jbool b =>
          have h1 : add_task data date raw = data := by simp [add_task, h, hdate]
          rw [h1, h1]
        | jnull =>
          have h1 : add_task data date raw = data := by simp [add_task, h, hdate]
          rw [h1, h1]
        | jarr l =>
          have h1 : add_task data date raw = data := by simp [add_task, h, hdate]
          rw [h1, h1]

/-- Witness for C10: re-adding `Write` to the §8 store changes nothing,
whether padded with ASCII spaces or with non-ASCII Python whitespace
(no-break spaces), and a whitespace-only name — ASCII or U+00A0 — is a
no-op. -/
theorem claim_C10_witness :
    add_task exStore "2024-01-01" " Write " = exStore
    ∧ add_task exStore "2024-01-01" " \u00A0Write\u00A0 " = exStore
    ∧ add_task exStore "2024-01-01" "  " = exStore
    ∧ add_task exStore "2024-01-01" "\u00A0 \u00A0" = exStore := by
  exact ⟨(claim_C10 exStore "2024-01-01" " Write ").2.1
      [("Write", entryOf 3600)] rfl rfl,
    (claim_C10 exStore "2024-01-01" " \u00A0Write\u00A0 ").2.1
      [("Write", entryOf 3600)] rfl rfl,
    (claim_C10 exStore "2024-01-01" "  ").1 rfl,
    (claim_C10 exStore "2024-01-01" "\u00A0 \u00A0").1 rfl⟩

/-- Claim C2, counterexample: on the §8 store the exporter emits the
`Write` row before the `Read` row — `agg.items()` order (first encounter
in the store), not the case-insensitive name sort the claim states, which
would put `"Read"` first. -/
theorem claim_C2_counterexample :
    export_csv_lines exStore =
      [csvHeader,
       "\"Write\",5400,2,\"2024-01-01:3600;2024-01-02:1800\"",
       "\"Read\",0,0,\"\""]
    ∧ export_csv_lines exStore ≠
      [csvHeader,
       "\"Read\",0,0,\"\"",
       "\"Write\",5400,2,\"2024-01-01:3600;2024-01-02:1800\""] := by
  constructor
  · rfl
  · decide

/-! ### Aggregation characterization lemmas -/

theorem Dict.set_eq_append_of_not_hasKey (d : Dict α) (k : String) (v : α)
    (h : Dict.hasKey d k = false) : Dict.set d k v = d ++ [(k, v)] := by
  unfold Dict.set
  rw [h]
  simp

theorem Dict.isSome_get?_iff_mem_keys (d : Dict α) (k : String) :
    (Dict.get? d k).isSome = true ↔ k ∈ Dict.keys d := by
  constructor
  · intro h
    cases hv : Dict.get? d k with
    | none => rw [hv] at h; exact Bool.noConfusion h
    | some v => exact Dict.mem_keys_of_get? d k v hv
  · intro h
    induction d with
    | nil => simp [Dict.keys] at h
    | cons p rest ih =>
      rw [Dict.get?_cons]
      by_cases hp : p.1 = k
      · have : (p.1 == k) = true := by simpa using hp
        simp [this]
      · have hb : (p.1 == k) = false := by simpa using hp
        simp only [hb, if_false]
        apply ih
        simp only [Dict.keys, List.map_cons, List.mem_cons] at h
        rcases h with h | h
        · exact absurd h.symm hp
        · simpa [Dict.keys] using h

/-- One day's inner aggregation loop, characterized per task name: it adds
the day's entry seconds (if the name appears in the day) to the running
entry, recording the date in `per_day` only for positive seconds. -/
theorem agg_inner_char (ts : Dict JVal) (date : String) (agg : Dict AggEntry)
    (name : String) (hname : name ≠ "_note") (hnd : (Dict.keys ts).Nodup) :
    Dict.get? (ts.foldl (aggStep date) agg) name =
      match Dict.get? ts name with
      | none => Dict.get? agg name
      | some v =>
        some (((Dict.get? agg name).getD (0, [])).1 + entrySeconds v,
          if 0 < entrySeconds v
          then Dict.set ((Dict.get? agg name).getD (0, [])).2 date (entrySeconds v)
          else ((Dict.get? agg name).getD (0, [])).2) := by
  induction ts generalizing agg with
  | nil => simp [Dict.get?_nil]
  | cons q rest ih =>
    simp only [Dict.keys, List.map_cons, List.nodup_cons] at hnd
    rw [List.foldl_cons, Dict.get?_cons]
    by_cases hq : q.1 = "_note"
    · have hqb : (q.1 == "_note") = true := by simpa using hq
      have hqn : (q.1 == name) = false := by
        simp only [beq_eq_false_iff_ne, ne_eq, hq]
        exact fun e => hname e.symm
      simp only [hqn, if_false]
      have hstep : aggStep date agg q = agg := by
        unfold aggStep
        rw [hqb]
        simp
      rw [hstep]
      exact ih agg (by simpa [Dict.keys] using hnd.2)
    · have hqb : (q.1 == "_note") = false := by simpa using hq
      have hstep : aggStep date agg q =
          Dict.set agg q.1
            (((Dict.get? agg q.1).getD (0, [])).1 + entrySeconds q.2,
             if 0 < entrySeconds q.2
             then Dict.set ((Dict.get? agg q.1).getD (0, [])).2 date
               (entrySeconds q.2)
             else ((Dict.get? agg q.1).getD (0, [])).2) := by
        unfold aggStep
        rw [hqb]
        simp
      rw [hstep]
      by_cases hqname : q.1 = name
      · have hqnb : (q.1 == name) = true := by simpa using hqname
        simp only [hqnb, if_true]
        have hnone : Dict.get? rest name = none := by
          apply Dict.get?_eq_none_of_not_mem_keys
          rw [← hqname]
          exact fun hm => hnd.1 (by simpa [Dict.keys] using hm)
        rw [ih _ (by simpa [Dict.keys] using hnd.2), hnone]
        rw [hqname, Dict.get?_set_self]
      · have hqnb : (q.1 == name) = false := by simpa using hqname
        simp only [hqnb, if_false]
        rw [ih _ (by simpa [Dict.keys] using hnd.2),
          Dict.get?_set_ne agg q.1 name _ hqname]
        simp

/-- One day's inner aggregation loop, key order: the not-yet-seen task
names of the day are appended in encounter order. -/
theorem agg_inner_keys (ts : Dict JVal) (date : String) (agg : Dict AggEntry) :
    Dict.keys (ts.foldl (aggStep date) agg) =
      Dict.keys agg ++ encounterDay ts (Dict.keys agg) := by
  induction ts generalizing agg with
  | nil => simp [encounterDay]
  | cons q rest ih =>
    rw [List.foldl_cons]
    unfold encounterDay
    by_cases hq : q.1 = "_note"
    · have hqb : (q.1 == "_note") = true := by simpa using hq
      have hstep : aggStep date agg q = agg := by
        unfold aggStep
        rw [hqb]
        simp
      rw [hstep, ih agg]
      simp [hqb]
    · have hqb : (q.1 == "_note") = false := by simpa using hq
      have hstep : aggStep date agg q =
          Dict.set agg q.1
            (((Dict.get? agg q.1).getD (0, [])).1 + entrySeconds q.2,
             if 0 < entrySeconds q.2
             then Dict.set ((Dict.get? agg q.1).getD (0, [])).2 date
               (entrySeconds q.2)
             else ((Dict.get? agg q.1).getD (0, [])).2) := by
        unfold aggStep
        rw [hqb]
        simp
      rw [hstep, ih _, Dict.keys_set]
      by_cases hmem : Dict.hasKey agg q.1
      · have hm : q.1 ∈ Dict.keys agg :=
          (Dict.isSome_get?_iff_mem_keys agg q.1).mp hmem
        rw [if_pos hmem]
        simp [hqb, hm]
      · have hme : q.1 ∉ Dict.keys agg := fun hm =>
          hmem ((Dict.isSome_get?_iff_mem_keys agg q.1).mpr hm)
        rw [if_neg hmem]
        simp [hqb, hme, List.append_assoc]

theorem keys_sub_of_set (pd : Dict Int) (k : String) (v : Int) (d : String)
    (hd : d ∈ Dict.keys (Dict.set pd k v)) : d ∈ Dict.keys pd ∨ d = k := by
  rw [Dict.keys_set] at hd
  by_cases hk : Dict.hasKey pd k
  · rw [if_pos hk] at hd
    exact Or.inl hd
  · rw [if_neg hk] at hd
    rcases List.mem_append.mp hd with h | h
    · exact Or.inl h
    · exact Or.inr (by simpa using h)

/-- The whole rollup fold, characterized per task name against the
spec-side aggregation: starting from an accumulator whose per-day dates are
disjoint from the remaining dates, folding the store adds exactly the
spec-side total and appends exactly the spec-side positive days. -/
theorem agg_fold_char (ds : Obj) (agg : Dict AggEntry) (name : String)
    (hname : name ≠ "_note")
    (hdnd : (Dict.keys ds).Nodup)
    (hwf : ∀ p ∈ ds, ∀ ts, p.2 = JVal.jobj ts → (Dict.keys ts).Nodup)
    (hfresh : ∀ e, Dict.get? agg name = some e →
        ∀ d ∈ Dict.keys e.2, d ∉ Dict.keys ds) :
    Dict.get? (ds.foldl dayStep agg) name =
      match Dict.get? agg name with
      | none =>
        if occurs ds name = true then some (specTotal ds name, specPD ds name)
        else none
      | some e => some (e.1 + specTotal ds name, e.2 ++ specPD ds name) := by
  induction ds generalizing agg with
  | nil =>
    rw [List.foldl_nil]
    cases hga : Dict.get? agg name with
    | none => simp [occurs]
    | some e => simp [specTotal, specPD]
  | cons p rest ih =>
    have hdnd2 := List.nodup_cons.mp (show (p.1 :: Dict.keys rest).Nodup from hdnd)
    have hdnd' : (Dict.keys rest).Nodup := hdnd2.2
    have hpn : p.1 ∉ Dict.keys rest := hdnd2.1
    have hwf' : ∀ q ∈ rest, ∀ ts, q.2 = JVal.jobj ts → (Dict.keys ts).Nodup :=
      fun q hq => hwf q (List.mem_cons_of_mem p hq)
    rw [List.foldl_cons]
    cases hp2 : p.2 with
    | jobj ts =>
      have hts : (Dict.keys ts).Nodup := hwf p (List.mem_cons_self p rest) ts hp2
      have hA : dayStep agg p = ts.foldl (aggStep p.1) agg := by
        unfold dayStep
        rw [hp2]
      have hinner := agg_inner_char ts p.1 agg name hname hts
      have hde : dayEntry p.2 name = Dict.get? ts name := by
        rw [hp2]
        rfl
      cases hv : Dict.get? ts name with
      | none =>
        have hAn : Dict.get? (dayStep agg p) name = Dict.get? agg name := by
          rw [hA, hinner, hv]
        have hfr : ∀ e, Dict.get? (dayStep agg p) name = some e →
            ∀ d ∈ Dict.keys e.2, d ∉ Dict.keys rest := by
          intro e he d hd hmem
          rw [hAn] at he
          exact hfresh e he d hd (show d ∈ p.1 :: Dict.keys rest from
            List.mem_cons_of_mem p.1 hmem)
        rw [ih (dayStep agg p) hdnd' hwf' hfr, hAn]
        simp only [occurs, List.any_cons, specTotal, specPD, hde, hv]
        cases hga : Dict.get? agg name with
        | none =>
          simp only [Option.isSome_none, Bool.false_or, Option.map_none',
            Option.getD_none, zero_add, List.nil_append]
        | some e =>
          simp only [Option.isSome_none, Bool.false_or, Option.map_none',
            Option.getD_none, zero_add, List.nil_append]
      | some v =>
        cases hga : Dict.get? agg name with
        | none =>
          have hAv : Dict.get? (dayStep agg p) name =
              some (entrySeconds v,
                if 0 < entrySeconds v then [(p.1, entrySeconds v)] else []) := by
            rw [hA, hinner, hv, hga]
            have hset : Dict.set ([] : Dict Int) p.1 (entrySeconds v)
                = [(p.1, entrySeconds v)] := by
              rw [Dict.set_eq_append_of_not_hasKey ([] : Dict Int) p.1
                (entrySeconds v) rfl]
              rfl
            simp [hset]
          have hfr : ∀ e, Dict.get? (dayStep agg p) name = some e →
              ∀ d ∈ Dict.keys e.2, d ∉ Dict.keys rest := by
            intro e he d hd
            rw [hAv] at he
            injection he with he'
            subst he'
            by_cases hs : 0 < entrySeconds v
            · rw [if_pos hs] at hd
              simp only [Dict.keys, List.map_cons, List.map_nil,
                List.mem_cons, List.not_mem_nil, or_false] at hd
              rw [hd]
              exact hpn
            · rw [if_neg hs] at hd
              simp [Dict.keys] at hd
          rw [ih (dayStep agg p) hdnd' hwf' hfr, hAv]
          simp only [occurs, List.any_cons, specTotal, specPD, hde, hv, hga]
          simp
        | some e0 =>
          have hp1k : Dict.hasKey e0.2 p.1 = false := by
            rw [Dict.hasKey_eq_false_iff]
            apply Dict.get?_eq_none_of_not_mem_keys
            intro hm
            exact hfresh e0 hga p.1 hm (show p.1 ∈ p.1 :: Dict.keys rest from
              List.mem_cons_self p.1 (Dict.keys rest))
          have hAv : Dict.get? (dayStep agg p) name =
              some (e0.1 + entrySeconds v,
                if 0 < entrySeconds v then e0.2 ++ [(p.1, entrySeconds v)]
                else e0.2) := by
            rw [hA, hinner, hv, hga]
            simp only [Option.getD_some]
            rw [Dict.set_eq_append_of_not_hasKey _ _ _ hp1k]
          have hfr : ∀ e, Dict.get? (dayStep agg p) name = some e →
              ∀ d ∈ Dict.keys e.2, d ∉ Dict.keys rest := by
            intro e he d hd
            rw [hAv] at he
            injection he with he'
            subst he'
            have hd' : d ∈ Dict.keys e0.2 ∨ d = p.1 := by
              by_cases hs : 0 < entrySeconds v
              · rw [if_pos hs] at hd
                rw [Dict.keys_append] at hd
                rcases List.mem_append.mp hd with h | h
                · exact Or.inl h
                · exact Or.inr (by simpa [Dict.keys] using h)
              · rw [if_neg hs] at hd
                exact Or.inl hd
            rcases hd' with hd' | rfl
            · intro hmem
              exact hfresh e0 hga d hd' (show d ∈ p.1 :: Dict.keys rest from
                List.mem_cons_of_mem p.1 hmem)
            · exact hpn
          rw [ih (dayStep agg p) hdnd' hwf' hfr, hAv]
          simp only [occurs, List.any_cons, specTotal, specPD, hde, hv, hga]
          by_cases hs : 0 < entrySeconds v
          · simp [hs, add_assoc]
          · simp [hs, add_assoc]
    | jstr s =>
      have hA : dayStep agg p = agg := by
        unfold dayStep
        rw [hp2]
      have hde : dayEntry p.2 name = none := by
        rw [hp2]
        rfl
      have hfr : ∀ e, Dict.get? agg name = some e →
          ∀ d ∈ Dict.keys e.2, d ∉ Dict.keys rest := by
        intro e he d hd hmem
        exact hfresh e he d hd (show d ∈ p.1 :: Dict.keys rest from
          List.mem_cons_of_mem p.1 hmem)
      rw [hA, ih agg hdnd' hwf' hfr]
      simp only [occurs, List.any_cons, specTotal, specPD, hde]
      cases hga : Dict.get? agg name with
      | none =>
        simp only [Option.isSome_none, Bool.false_or, Option.map_none',
          Option.getD_none, zero_add, List.nil_append]
      | some e =>
        simp only [Option.isSome_none, Bool.false_or, Option.map_none',
          Option.getD_none, zero_add, List.nil_append]
    | jnum n =>
      have hA : dayStep agg p = agg := by
        unfold dayStep
        rw [hp2]
      have hde : dayEntry p.2 name = none := by
        rw [hp2]
        rfl
      have hfr : ∀ e, Dict.get? agg name = some e →
          ∀ d ∈ Dict.keys e.2, d ∉ Dict.keys rest := by
        intro e he d hd hmem
        exact hfresh e he d hd (show d ∈ p.1 :: Dict.keys rest from
          List.mem_cons_of_mem p.1 hmem)
      rw [hA, ih agg hdnd' hwf' hfr]
      simp only [occurs, List.any_cons, specTotal, specPD, hde]
      cases hga : Dict.get? agg name with
      | none =>
        simp only [Option.isSome_none, Bool.false_or, Option.map_none',
          Option.getD_none, zero_add, List.nil_append]
      | some e =>
        simp only [Option.isSome_none, Bool.false_or, Option.map_none',
          Option.getD_none, zero_add, List.nil_append]
    | jbool b =>
      have hA : dayStep agg p = agg := by
        unfold dayStep
        rw [hp2]
      have hde : dayEntry p.2 name = none := by
        rw [hp2]
        rfl
      have hfr : ∀ e, Dict.get? agg name = some e →
          ∀ d ∈ Dict.keys e.2, d ∉ Dict.keys rest := by
        intro e he d hd hmem
        exact hfresh e he d hd (show d ∈ p.1 :: Dict.keys rest from
          List.mem_cons_of_mem p.1 hmem)
      rw [hA, ih agg hdnd' hwf' hfr]
      simp only [occurs, List.any_cons, specTotal, specPD, hde]
      cases hga : Dict.get? agg name with
      | none =>
        simp only [Option.isSome_none, Bool.false_or, Option.map_none',
          Option.getD_none, zero_add, List.nil_append]
      | some e =>
        simp only [Option.isSome_none, Bool.false_or, Option.map_none',
          Option.getD_none, zero_add, List.nil_append]
    | jnull =>
      have hA : dayStep agg p = agg := by
        unfold dayStep
        rw [hp2]
      have hde : dayEntry p.2 name = none := by
        rw [hp2]
        rfl
      have hfr : ∀ e, Dict.get? agg name = some e →
          ∀ d ∈ Dict.keys e.2, d ∉ Dict.keys rest := by
        intro e he d hd hmem
        exact hfresh e he d hd (show d ∈ p.1 :: Dict.keys rest from
          List.mem_cons_of_mem p.1 hmem)
      rw [hA, ih agg hdnd' hwf' hfr]
      simp only [occurs, List.any_cons, specTotal, specPD, hde]
      cases hga : Dict.get? agg name with
      | none =>
        simp only [Option.isSome_none, Bool.false_or, Option.map_none',
          Option.getD_none, zero_add, List.nil_append]
      | some e =>
        simp only [Option.isSome_none, Bool.false_or, Option.map_none',
          Option.getD_none, zero_add, List.nil_append]
    | jarr l =>
      have hA : dayStep agg p = agg := by
        unfold dayStep
        rw [hp2]
      have hde : dayEntry p.2 name = none := by
        rw [hp2]
        rfl
      have hfr : ∀ e, Dict.get? agg name = some e →
          ∀ d ∈ Dict.keys e.2, d ∉ Dict.keys rest := by
        intro e he d hd hmem
        exact hfresh e he d hd (show d ∈ p.1 :: Dict.keys rest from
          List.mem_cons_of_mem p.1 hmem)
      rw [hA, ih agg hdnd' hwf' hfr]
      simp only [occurs, List.any_cons, specTotal, specPD, hde]
      cases hga : Dict.get? agg name with
      | none =>
        simp only [Option.isSome_none, Bool.false_or, Option.map_none',
          Option.getD_none, zero_add, List.nil_append]
      | some e =>
        simp only [Option.isSome_none, Bool.false_or, Option.map_none',
          Option.getD_none, zero_add, List.nil_append]

/-- The whole rollup fold, key order: the rows of `agg` appear in
first-encounter order of the task names. -/
theorem agg_fold_keys (ds : Obj) (agg : Dict AggEntry) :
    Dict.keys (ds.foldl dayStep agg) =
      Dict.keys agg ++ encounterNew ds (Dict.keys agg) := by
  induction ds generalizing agg with
  | nil => simp [encounterNew]
  | cons p rest ih =>
    rw [List.foldl_cons]
    unfold encounterNew
    cases hp2 : p.2 with
    | jobj ts =>
      have hA : dayStep agg p = ts.foldl (aggStep p.1) agg := by
        unfold dayStep
        rw [hp2]
      rw [hA, ih, agg_inner_keys, List.append_assoc]
    | jstr s =>
      have hA : dayStep agg p = agg := by
        unfold dayStep
        rw [hp2]
      rw [hA, ih]
    | jnum n =>
      have hA : dayStep agg p = agg := by
        unfold dayStep
        rw [hp2]
      rw [hA, ih]
    | jbool b =>
      have hA : dayStep agg p = agg := by
        unfold dayStep
        rw [hp2]
      rw [hA, ih]
    | jnull =>
      have hA : dayStep agg p = agg := by
        unfold dayStep
        rw [hp2]
      rw [hA, ih]
    | jarr l =>
      have hA : dayStep agg p = agg := by
        unfold dayStep
        rw [hp2]
      rw [hA, ih]

theorem mem_encounterDay (ts : Dict JVal) (seen : List String) (x : String) :
    x ∈ encounterDay ts seen ↔
      (x ∉ seen ∧ x ≠ "_note" ∧ x ∈ Dict.keys ts) := by
  induction ts generalizing seen with
  | nil => simp [encounterDay, Dict.keys]
  | cons q rest ih =>
    unfold encounterDay
    by_cases hc : (q.1 == "_note" || seen.contains q.1) = true
    · rw [if_pos hc]
      rw [ih]
      simp only [Bool.or_eq_true, beq_iff_eq, List.contains_eq_any_beq,
        List.any_eq_true, beq_iff_eq] at hc
      constructor
      · rintro ⟨h1, h2, h3⟩
        exact ⟨h1, h2, show x ∈ q.1 :: Dict.keys rest from
          List.mem_cons_of_mem q.1 h3⟩
      · rintro ⟨h1, h2, h3⟩
        refine ⟨h1, h2, ?_⟩
        rcases List.mem_cons.mp (show x ∈ q.1 :: Dict.keys rest from h3)
          with h | h
        · exfalso
          rcases hc with hc | ⟨y, hy, hyx⟩
          · exact h2 (h ▸ hc)
          · exact h1 (h ▸ hyx ▸ hy)
        · exact h
    · rw [if_neg hc]
      simp only [Bool.or_eq_true, beq_iff_eq, List.contains_eq_any_beq,
        List.any_eq_true, beq_iff_eq, not_or, not_exists] at hc
      push_neg at hc
      obtain ⟨hq1, hq2⟩ := hc
      rw [List.mem_cons, ih]
      constructor
      · rintro (rfl | ⟨h1, h2, h3⟩)
        · exact ⟨fun hm => hq2 q.1 hm rfl, hq1,
            show q.1 ∈ q.1 :: Dict.keys rest from List.mem_cons_self q.1 _⟩
        · refine ⟨fun hm => h1 (List.mem_append_left _ hm), h2,
            show x ∈ q.1 :: Dict.keys rest from List.mem_cons_of_mem q.1 h3⟩
      · rintro ⟨h1, h2, h3⟩
        by_cases hxq : x = q.1
        · exact Or.inl hxq
        · right
          rcases List.mem_cons.mp (show x ∈ q.1 :: Dict.keys rest from h3)
            with h | h
          · exact absurd h hxq
          · refine ⟨?_, h2, h⟩
            intro hm
            rcases List.mem_append.mp hm with hm | hm
            · exact h1 hm
            · exact hxq (by simpa using hm)

theorem mem_encounterNew (ds : Obj) (seen : List String) (x : String) :
    x ∈ encounterNew ds seen ↔
      (x ∉ seen ∧ x ≠ "_note" ∧ occurs ds x = true) := by
  induction ds generalizing seen with
  | nil => simp [encounterNew, occurs]
  | cons p rest ih =>
    unfold encounterNew
    cases hp2 : p.2 with
    | jobj ts =>
      rw [List.mem_append, mem_encounterDay, ih]
      have hocc : occurs (p :: rest) x =
          ((Dict.get? ts x).isSome || occurs rest x) := by
        unfold occurs
        rw [List.any_cons]
        unfold dayEntry
        rw [hp2]
      rw [hocc]
      constructor
      · rintro (⟨h1, h2, h3⟩ | ⟨h1, h2, h3⟩)
        · refine ⟨h1, h2, ?_⟩
          rw [Bool.or_eq_true]
          exact Or.inl ((Dict.isSome_get?_iff_mem_keys ts x).mpr h3)
        · refine ⟨fun hm => h1 (List.mem_append_left _ hm), h2, ?_⟩
          rw [Bool.or_eq_true]
          exact Or.inr h3
      · rintro ⟨h1, h2, h3⟩
        rw [Bool.or_eq_true] at h3
        by_cases hday : x ∈ encounterDay ts seen
        · exact Or.inl ((mem_encounterDay ts seen x).mp hday)
        · right
          rcases h3 with h3 | h3
          · exfalso
            exact hday ((mem_encounterDay ts seen x).mpr
              ⟨h1, h2, (Dict.isSome_get?_iff_mem_keys ts x).mp h3⟩)
          · refine ⟨?_, h2, h3⟩
            intro hm
            rcases List.mem_append.mp hm with hm | hm
            · exact h1 hm
            · exact hday hm
    | jstr s =>
      rw [ih]
      have hocc : occurs (p :: rest) x = occurs rest x := by
        unfold occurs
        rw [List.any_cons]
        unfold dayEntry
        rw [hp2]
        rfl
      rw [hocc]
    | jnum n =>
      rw [ih]
      have hocc : occurs (p :: rest) x = occurs rest x := by
        unfold occurs
        rw [List.any_cons]
        unfold dayEntry
        rw [hp2]
        rfl
      rw [hocc]
    | jbool b =>
      rw [ih]
      have hocc : occurs (p :: rest) x = occurs rest x := by
        unfold occurs
        rw [List.any_cons]
        unfold dayEntry
        rw [hp2]
        rfl
      rw [hocc]
    | jnull =>
      rw [ih]
      have hocc : occurs (p :: rest) x = occurs rest x := by
        unfold occurs
        rw [List.any_cons]
        unfold dayEntry
        rw [hp2]
        rfl
      rw [hocc]
    | jarr l =>
      rw [ih]
      have hocc : occurs (p :: rest) x = occurs rest x := by
        unfold occurs
        rw [List.any_cons]
        unfold dayEntry
        rw [hp2]
        rfl
      rw [hocc]

theorem encounterDay_nodup (ts : Dict JVal) (seen : List String) :
    (encounterDay ts seen).Nodup := by
  induction ts generalizing seen with
  | nil => simp [encounterDay]
  | cons q rest ih =>
    unfold encounterDay
    by_cases hc : (q.1 == "_note" || seen.contains q.1) = true
    · rw [if_pos hc]
      exact ih seen
    · rw [if_neg hc]
      rw [List.nodup_cons]
      refine ⟨?_, ih (seen ++ [q.1])⟩
      intro hm
      have := ((mem_encounterDay rest (seen ++ [q.1]) q.1).mp hm).1
      exact this (List.mem_append_right _ (List.mem_cons_self q.1 []))

theorem encounterNew_nodup (ds : Obj) (seen : List String) :
    (encounterNew ds seen).Nodup := by
  induction ds generalizing seen with
  | nil => simp [encounterNew]
  | cons p rest ih =>
    unfold encounterNew
    cases hp2 : p.2 with
    | jobj ts =>
      apply List.Nodup.append (encounterDay_nodup ts seen) (ih _)
      intro x hx1 hx2
      have h2 := ((mem_encounterNew rest _ x).mp hx2).1
      exact h2 (List.mem_append_right _ hx1)
    | jstr s => exact ih seen
    | jnum n => exact ih seen
    | jbool b => exact ih seen
    | jnull => exact ih seen
    | jarr l => exact ih seen

theorem dict_eq_map_keys (d : Dict AggEntry) (hnd : (Dict.keys d).Nodup) :
    d = (Dict.keys d).map (fun k => (k, (Dict.get? d k).getD (0, []))) := by
  induction d with
  | nil => rfl
  | cons p rest ih =>
    have hnd2 := List.nodup_cons.mp (show (p.1 :: Dict.keys rest).Nodup from hnd)
    show p :: rest = (p.1 :: Dict.keys rest).map _
    rw [List.map_cons]
    congr 1
    · rw [Dict.get?_first]
      rfl
    · have hmap : (Dict.keys rest).map
          (fun k => (k, (Dict.get? (p :: rest) k).getD (0, [])))
          = (Dict.keys rest).map
            (fun k => (k, (Dict.get? rest k).getD (0, []))) := by
        apply List.map_congr_left
        intro k hk
        rw [Dict.get?_cons]
        have hb : (p.1 == k) = false := by
          simp only [beq_eq_false_iff_ne, ne_eq]
          intro e
          exact hnd2.1 (e ▸ hk)
        simp [hb]
      rw [hmap, ← ih hnd2.2]

/-- The Python `agg` dict equals, as an ordered list of rows, the spec-side
aggregation mapped over the task names in first-encounter order. -/
theorem aggregate_eq_spec (data : Obj) (hdnd : (Dict.keys data).Nodup)
    (hwf : ∀ p ∈ data, ∀ ts, p.2 = JVal.jobj ts → (Dict.keys ts).Nodup) :
    aggregate data = (encounterNames data).map
      (fun n => (n, specTotal data n, specPD data n)) := by
  have hkeys : Dict.keys (aggregate data) = encounterNames data := by
    unfold aggregate encounterNames
    rw [agg_fold_keys]
    rfl
  have hnda : (Dict.keys (aggregate data)).Nodup := by
    rw [hkeys]
    exact encounterNew_nodup data []
  have hrec := dict_eq_map_keys (aggregate data) hnda
  rw [hrec, hkeys]
  apply List.map_congr_left
  intro n hn
  have hmem := (mem_encounterNew data [] n).mp hn
  have hchar := agg_fold_char data [] n hmem.2.1 hdnd hwf
    (by intro e he; exact absurd he (by rw [Dict.get?_nil]; exact Option.noConfusion))
  have hval : Dict.get? (aggregate data) n
      = some (specTotal data n, specPD data n) := by
    unfold aggregate
    rw [hchar]
    show (if occurs data n = true then _ else _) = _
    rw [if_pos hmem.2.2]
  rw [hval]
  rfl

theorem storeOK_nodup (data : Obj) (h : storeOK data = true) :
    (Dict.keys data).Nodup := by
  unfold storeOK at h
  rw [Bool.and_eq_true] at h
  exact of_decide_eq_true h.1

theorem storeOK_days (data : Obj) (h : storeOK data = true) :
    ∀ p ∈ data, ∀ ts, p.2 = JVal.jobj ts → (Dict.keys ts).Nodup := by
  intro p hp ts hts
  unfold storeOK at h
  rw [Bool.and_eq_true] at h
  have h2 := List.all_eq_true.mp h.2 p hp
  rw [hts] at h2
  have h3 : dayOK ts = true := h2
  unfold dayOK at h3
  rw [Bool.and_eq_true] at h3
  exact of_decide_eq_true h3.1

/-- Claim C4: the rollup entry of every task name equals the spec-side
aggregation — the total is the sum of that task's seconds over all dates
(skipping `_note` entries and non-mapping date values), `per_day` holds
exactly the dates with positive seconds, and `days_count` (the length of
`per_day`) counts them; the §8 example evaluates as the spec states. -/
theorem claim_C4 (data : Obj) (name : String)
    (h : storeOK data = true) (hname : name ≠ "_note") :
    (∀ e, Dict.get? (aggregate data) name = some e →
        e.1 = specTotal data name ∧ e.2 = specPD data name
          ∧ e.2.length = (specPD data name).length)
    ∧ (occurs data name = true →
        Dict.get? (aggregate data) name
          = some (specTotal data name, specPD data name))
    ∧ (occurs data name = false → Dict.get? (aggregate data) name = none)
    ∧ Dict.get? (aggregate exStore) "Write"
        = some (5400, [("2024-01-01", 3600), ("2024-01-02", 1800)])
    ∧ Dict.get? (aggregate exStore) "Read" = some (0, []) := by
  have hchar := agg_fold_char data [] name hname (storeOK_nodup data h)
    (storeOK_days data h)
    (fun e he => absurd he (by rw [Dict.get?_nil]; exact Option.noConfusion))
  have hchar' : Dict.get? (aggregate data) name =
      if occurs data name = true
      then some (specTotal data name, specPD data name) else none := by
    unfold aggregate
    rw [hchar]
    rfl
  refine ⟨?_, ?_, ?_, rfl, rfl⟩
  · intro e he
    rw [hchar'] at he
    by_cases ho : occurs data name = true
    · rw [if_pos ho] at he
      injection he with he'
      rw [← he']
      exact ⟨rfl, rfl, rfl⟩
    · rw [if_neg ho] at he
      exact absurd he Option.noConfusion
  · intro ho
    rw [hchar', if_pos ho]
  · intro ho
    rw [hchar', if_neg (by rw [ho]; exact Bool.false_ne_true)]

/-- Witness for C4: the §8 store's `Write` rollup is its spec-side
aggregation. -/
theorem claim_C4_witness :
    Dict.get? (aggregate exStore) "Write"
      = some (specTotal exStore "Write", specPD exStore "Write") :=
  (claim_C4 exStore "Write" rfl (by decide)).2.1 rfl

/-- Claim C2 (amended): `export_csv_all` writes the header
`task_name,total_seconds,days_count,per_day_breakdown` and then exactly one
row per task name — quoted name, spec-side total, day count, and the quoted
semicolon-joined `date:seconds` breakdown over the per-day dates sorted
ascending — but the rows appear in first-encounter order of the task names
while iterating the store (Python dict insertion order), not sorted
case-insensitively. -/
theorem claim_C2_amended (data : Obj) (h : storeOK data = true) :
    export_csv_lines data =
      csvHeader :: (encounterNames data).map
        (fun n => csvRow n (specTotal data n, specPD data n))
    ∧ (encounterNames data).Nodup
    ∧ (∀ n, n ∈ encounterNames data ↔ (n ≠ "_note" ∧ occurs data n = true))
    ∧ (∀ n, List.Sorted (fun a b => pyLe a b = true)
        (pySorted (Dict.keys (specPD data n))))
    ∧ (∀ n, (pySorted (Dict.keys (specPD data n))).Perm
        (Dict.keys (specPD data n))) := by
  refine ⟨?_, encounterNew_nodup data [], ?_, fun n => pySorted_sorted _,
    fun n => pySorted_perm _⟩
  · unfold export_csv_lines
    rw [aggregate_eq_spec data (storeOK_nodup data h) (storeOK_days data h),
      List.map_map]
    rfl
  · intro n
    rw [show encounterNames data = encounterNew data [] from rfl,
      mem_encounterNew]
    simp

/-- Witness for C2 (amended) on the §8 store. -/
theorem claim_C2_amended_witness :
    export_csv_lines exStore =
      csvHeader :: (encounterNames exStore).map
        (fun n => csvRow n (specTotal exStore n, specPD exStore n)) :=
  (claim_C2_amended exStore rfl).1

/-- Claim C9: the charts series has exactly one point per date key of the
store, in ascending (code-point, hence chronological for ISO dates) order;
each point of a date carries that day's summed non-`_note` seconds divided
by 3600; and the §8 charts store yields the single point
`("2024-02-01", 2)`. -/
theorem claim_C9 (data : Obj) (h : storeOKCharts data = true) :
    ((dailyHoursSeries data).map Prod.fst).Perm (Dict.keys data)
    ∧ List.Sorted (fun a b => pyLe a b = true)
        ((dailyHoursSeries data).map Prod.fst)
    ∧ (dailyHoursSeries data).length = data.length
    ∧ (∀ d ts, Dict.get? data d = some (.jobj ts) →
        (d, (sumSeconds ts : ℚ) / 3600) ∈ dailyHoursSeries data)
    ∧ dailyHoursSeries exChartsStore = [("2024-02-01", 2)] := by
  have hfst : (dailyHoursSeries data).map Prod.fst
      = pySorted (Dict.keys data) := by
    unfold dailyHoursSeries per_date_seconds
    rw [List.map_map, List.map_map]
    apply List.map_id''
    intro x
    rfl
  refine ⟨?_, ?_, ?_, ?_, ?_⟩
  · rw [hfst]
    exact pySorted_perm _
  · rw [hfst]
    exact pySorted_sorted _
  · have h1 : (dailyHoursSeries data).length
        = ((dailyHoursSeries data).map Prod.fst).length :=
      (List.length_map _ _).symm
    rw [h1, hfst, (pySorted_perm (Dict.keys data)).length_eq]
    exact List.length_map _ _
  · intro d ts hget
    have hd : d ∈ Dict.keys data := Dict.mem_keys_of_get? data d _ hget
    have hd2 : d ∈ pySorted (Dict.keys data) :=
      ((pySorted_perm (Dict.keys data)).mem_iff).mpr hd
    unfold dailyHoursSeries per_date_seconds
    rw [List.map_map]
    apply List.mem_map.mpr
    refine ⟨d, hd2, ?_⟩
    simp only [Function.comp]
    rw [hget]
  · have hex : dailyHoursSeries exChartsStore
        = [("2024-02-01", ((7200 : Int) : ℚ) / 3600)] := rfl
    have hq : ((7200 : Int) : ℚ) / 3600 = 2 := by norm_num
    rw [hex, hq]

/-- Witness for C9: the §8 charts example. -/
theorem claim_C9_witness :
    dailyHoursSeries exChartsStore = [("2024-02-01", 2)] :=
  (claim_C9 exChartsStore rfl).2.2.2.2
